import Mathlib

/-!
Verification of the web-weaver graph-viewer pipeline
(`src/tools/graph-viewer/{loader.py, renderer.py, main.py}`).

The NetworkX directed graph is embedded as a list of identifier/attribute
pairs plus a list of weighted directed edges, both in insertion order
(NetworkX iterates nodes and edges in insertion order).  Floating-point
quantities are modelled over `ℚ` (every IEEE float is a rational number);
Python `int()` truncation and `%` are modelled exactly.
-/

set_option maxHeartbeats 1000000

namespace WebWeaver

/-- Node attributes set by `load_graph` in loader.py: `domain`, `description`,
`crawl_count`, `depth`. -/
structure NodeData where
  domain : String
  description : String
  crawl_count : Nat
  depth : Nat
deriving Repr, DecidableEq

/-- A NetworkX `DiGraph` as used by loader.py: nodes in insertion order with
their attribute record, and directed edges `(u, v, weight)` in insertion
order.  `DiGraph` keeps at most one edge per ordered pair; that invariant is
`EdgePairsNodup` below and is assumed where a proof needs it. -/
structure Graph where
  nodes : List (Nat × NodeData)
  edges : List (Nat × Nat × Int)
deriving Repr, DecidableEq

/-- The `DiGraph` invariant: at most one edge per ordered pair `(u, v)`. -/
def Graph.EdgePairsNodup (G : Graph) : Prop :=
  (G.edges.map (fun e => (e.1, e.2.1))).Nodup

instance (G : Graph) : Decidable G.EdgePairsNodup := by
  unfold Graph.EdgePairsNodup; infer_instance

/-- `G.successors(n)` of NetworkX: targets of edges leaving `n`. -/
def successors (G : Graph) (n : Nat) : List Nat :=
  (G.edges.filter (fun e => e.1 == n)).map (fun e => e.2.1)

/-- `G.predecessors(n)` of NetworkX: sourcess of edges entering `n`. -/
def predecessors (G : Graph) (n : Nat) : List Nat :=
  (G.edges.filter (fun e => e.2.1 == n)).map (fun e => e.1)

/-- Whether node `n` is an endpoint of edge `e` (used by `nx.isolates`). -/
def incident (n : Nat) (e : Nat × Nat × Int) : Bool :=
  e.1 == n || e.2.1 == n

/-- `nx.isolates(G)`: nodes with no incident edge in either direction. -/
def isolates (G : Graph) : List Nat :=
  (G.nodes.map Prod.fst).filter (fun n => !(G.edges.any (incident n)))

/-- `G.remove_edges_from(es)` of NetworkX: drop every edge whose ordered
endpoint pair occurs in `es`. -/
def remove_edges_from (G : Graph) (es : List (Nat × Nat)) : Graph :=
  { G with edges := G.edges.filter (fun e => !(es.contains (e.1, e.2.1))) }

/-- `G.remove_nodes_from(ns)` of NetworkX: drop the listed nodes and every
edge incident to one of them. -/
def remove_nodes_from (G : Graph) (ns : List Nat) : Graph :=
  { nodes := G.nodes.filter (fun p => !(ns.contains p.1)),
    edges := G.edges.filter (fun e => !(ns.contains e.1) && !(ns.contains e.2.1)) }

/-- `loader.filter_by_weight`: collect the edges whose weight is below
`min_weight`, copy the graph, and remove them from the copy. -/
def filter_by_weight (G : Graph) (min_weight : Int) : Graph :=
  let edges_to_remove :=
    (G.edges.filter (fun e => e.2.2 < min_weight)).map (fun e => (e.1, e.2.1))
  remove_edges_from G edges_to_remove

/-- `loader.remove_isolated`: copy the graph and drop `nx.isolates(G)`. -/
def remove_isolated (G : Graph) : Graph :=
  remove_nodes_from G (isolates G)

/-- The root lookup at the top of `loader.extract_subgraph`: the first node
(in iteration order) whose `domain` attribute equals `root_domain`. -/
def findRootId (G : Graph) (root_domain : String) : Option Nat :=
  (G.nodes.find? (fun p => p.2.domain == root_domain)).map Prod.fst

/-- One union of successor and predecessor lists over a working set,
matching the body of the hop loop in `loader.extract_subgraph`. -/
def neighborsAll (G : Graph) (ns : List Nat) : List Nat :=
  (ns.map (fun n => successors G n ++ predecessors G n)).flatten

/-- The hop loop of `loader.extract_subgraph`: `depth` rounds, each adding
all direct successors and predecessors of every node currently included.
The list is read up to membership (the Python code uses a set). -/
def expand (G : Graph) : Nat → List Nat → List Nat
  | 0, ns => ns
  | k + 1, ns => expand G k (ns ++ neighborsAll G ns)

/-- `G.subgraph(S)` of NetworkX: the induced subgraph on the node set `S`
(every edge of `G` between two members of `S` is kept). -/
def subgraphInduced (G : Graph) (S : List Nat) : Graph :=
  { nodes := G.nodes.filter (fun p => S.contains p.1),
    edges := G.edges.filter (fun e => S.contains e.1 && S.contains e.2.1) }

/-- `loader.extract_subgraph`: find the root by domain (raising `ValueError`,
modelled as `Except.error`, when absent), expand for `depth` rounds, and
return the induced subgraph. -/
def extract_subgraph (G : Graph) (root_domain : String) (depth : Nat) :
    Except String Graph :=
  match findRootId G root_domain with
  | none => .error ("Domain " ++ root_domain ++ " not found in graph")
  | some root_id => .ok (subgraphInduced G (expand G depth [root_id]))

/-- Node attributes of the worked scenario in the spec (description empty,
crawl count 1, depth 0). -/
def exNodeData (d : String) : NodeData :=
  { domain := d, description := "", crawl_count := 1, depth := 0 }

/-- The scenario graph of the spec: nodes `{1: "a.com", 2: "b.com",
3: "c.com"}`, edges `{(1,2,w=1), (2,3,w=5)}`. -/
def exampleG : Graph :=
  { nodes := [(1, exNodeData "a.com"), (2, exNodeData "b.com"), (3, exNodeData "c.com")],
    edges := [(1, 2, 1), (2, 3, 5)] }

/-- Spec wording for membership in the subgraph-extraction working set:
the root after 0 rounds, and after `k + 1` rounds anything already included
or any direct successor or predecessor of an included node.  This is the
description in §4.3 of the spec, to be compared with `expand`. -/
def specExpanded (G : Graph) (r : Nat) : Nat → Nat → Prop
  | 0 => fun n => n = r
  | k + 1 => fun n =>
      specExpanded G r k n ∨
      ∃ m, specExpanded G r k m ∧
        ((∃ w, (m, n, w) ∈ G.edges) ∨ (∃ w, (n, m, w) ∈ G.edges))

/-! ### CLI argument validation (`main.validate_arguments`) -/

/-- The min-weight check of `main.validate_arguments`: the program exits with
an error when `--min-weight` is provided and negative; `true` means the
validation passes. -/
def validate_min_weight (min_weight : Option Int) : Bool :=
  match min_weight with
  | none => true
  | some w => !(w < 0 : Bool)

/-- The depth check of `main.validate_arguments`: the program exits with an
error when `--depth` is below 1. -/
def validate_depth (depth : Int) : Bool :=
  !(depth < 1 : Bool)

/-! ### Store-level model of the filter operations.

The purity claim (no mutation of the input graph) is about the Python heap:
each filter calls `G.copy()` and mutates only the copy.  The heap is modelled
as a list of graph cells addressed by index; `copy` appends a fresh cell and
the NetworkX mutators update a cell in place. -/

/-- Read the graph stored in cell `a`. -/
def storeGet (σ : List Graph) (a : Nat) : Graph :=
  σ.getD a { nodes := [], edges := [] }

/-- `G.copy()`: allocate a fresh cell holding a copy of cell `a` and return
the store together with the fresh address. -/
def store_copy (σ : List Graph) (a : Nat) : List Graph × Nat :=
  (σ ++ [storeGet σ a], σ.length)

/-- In-place `remove_edges_from` on cell `a`. -/
def store_remove_edges (σ : List Graph) (a : Nat) (es : List (Nat × Nat)) :
    List Graph :=
  σ.set a (remove_edges_from (storeGet σ a) es)

/-- In-place `remove_nodes_from` on cell `a`. -/
def store_remove_nodes (σ : List Graph) (a : Nat) (ns : List Nat) :
    List Graph :=
  σ.set a (remove_nodes_from (storeGet σ a) ns)

/-- `loader.filter_by_weight` at heap level: read the edges to drop from the
input cell, copy the graph, and mutate only the copy. -/
def filter_by_weight_impl (σ : List Graph) (a : Nat) (min_weight : Int) :
    List Graph × Nat :=
  let G := storeGet σ a
  let edges_to_remove :=
    (G.edges.filter (fun e => e.2.2 < min_weight)).map (fun e => (e.1, e.2.1))
  let σb := store_copy σ a
  (store_remove_edges σb.1 σb.2 edges_to_remove, σb.2)

/-- `loader.remove_isolated` at heap level: read the isolated nodes from the
input cell, copy the graph, and mutate only the copy. -/
def remove_isolated_impl (σ : List Graph) (a : Nat) : List Graph × Nat :=
  let isolated := isolates (storeGet σ a)
  let σb := store_copy σ a
  (store_remove_nodes σb.1 σb.2 isolated, σb.2)

/-- `loader.extract_subgraph` at heap level: `G.subgraph(nodes).copy()`
materialises the induced subgraph into a fresh cell; the input cell is never
written. -/
def extract_subgraph_impl (σ : List Graph) (a : Nat) (root_domain : String)
    (depth : Nat) : Except String (List Graph × Nat) :=
  (extract_subgraph (storeGet σ a) root_domain depth).map
    (fun H => (σ ++ [H], σ.length))

/-! ### Position normalization (`renderer.normalize_positions`).

Coordinates are rationals; the per-node, per-axis `random.uniform(-jitter,
jitter)` draws are modelled by an arbitrary sampling function `rand`
constrained (in the theorems) to the support of the uniform distribution. -/

/-- Python `min` over a non-empty list (the empty case is unreachable in
`normalize_positions`, which returns early on an empty dict). -/
def pyMin : List ℚ → ℚ
  | [] => 0
  | x :: xs => xs.foldl min x

/-- Python `max` over a non-empty list. -/
def pyMax : List ℚ → ℚ
  | [] => 0
  | x :: xs => xs.foldl max x

/-- Default of the `scale` parameter in the `normalize_positions` signature. -/
def normalize_positions_scale_default : ℚ := 10

/-- Default of the `jitter` parameter in the `normalize_positions` signature. -/
def normalize_positions_jitter_default : ℚ := 0

/-- `renderer.normalize_positions`: min-max normalization per axis onto
`[0, scale]`, a degenerate axis range replaced by `1.0`, and optional
symmetric jitter added per node per axis when `jitter > 0`. -/
def normalize_positions (rand : Nat → ℚ × ℚ) (pos : List (Nat × ℚ × ℚ))
    (scale : ℚ := normalize_positions_scale_default)
    (jitter : ℚ := normalize_positions_jitter_default) : List (Nat × ℚ × ℚ) :=
  if pos.isEmpty then [] else
  let xs := pos.map (fun q => q.2.1)
  let ys := pos.map (fun q => q.2.2)
  let min_x := pyMin xs
  let max_x := pyMax xs
  let min_y := pyMin ys
  let max_y := pyMax ys
  let range_x := if max_x ≠ min_x then max_x - min_x else 1
  let range_y := if max_y ≠ min_y then max_y - min_y else 1
  pos.map (fun q =>
    let norm_x := (q.2.1 - min_x) / range_x * scale
    let norm_y := (q.2.2 - min_y) / range_y * scale
    if 0 < jitter then (q.1, norm_x + (rand q.1).1, norm_y + (rand q.1).2)
    else (q.1, norm_x, norm_y))

/-- Default of the `scale` parameter of `renderer.render_cosmograph_csv`. -/
def render_cosmograph_csv_scale_default : ℚ := 50

/-- Default of the `jitter` parameter of `renderer.render_cosmograph_csv`. -/
def render_cosmograph_csv_jitter_default : ℚ := 1 / 20

/-- The position-processing step of `renderer.render_cosmograph_csv`: the
computed layout is normalized with the scale and jitter received by
`render_cosmograph_csv`, which are always passed explicitly
(`normalize_positions(positions, scale=scale, jitter=jitter)`). -/
def render_positions (rand : Nat → ℚ × ℚ) (layout_pos : List (Nat × ℚ × ℚ))
    (scale : ℚ := render_cosmograph_csv_scale_default)
    (jitter : ℚ := render_cosmograph_csv_jitter_default) : List (Nat × ℚ × ℚ) :=
  normalize_positions rand layout_pos scale jitter

/-! ### Node color (`renderer.calculate_node_color`). -/

/-- Python `int()` on a rational: truncation toward zero. -/
def pyInt (q : ℚ) : ℤ :=
  if q < 0 then -⌊-q⌋ else ⌊q⌋

/-- Lowercase hexadecimal digit, as produced by Python `%x` formatting. -/
def hexDigitChar (n : Nat) : Char :=
  if n < 10 then Char.ofNat (48 + n) else Char.ofNat (87 + n)

/-- Lowercase hexadecimal rendering of a natural number (Python `%x`). -/
def natToHex (n : Nat) : String :=
  if _h : n < 16 then String.singleton (hexDigitChar n)
  else natToHex (n / 16) ++ String.singleton (hexDigitChar (n % 16))
termination_by n
decreasing_by exact Nat.div_lt_self (by omega) (by omega)

/-- Python `f"{n:02x}"` for a non-negative value: hexadecimal, zero-padded to
at least two digits. -/
def hex02 (n : Nat) : String :=
  let s := natToHex n
  if s.length < 2 then "0" ++ s else s

/-- The three-segment gradient of `renderer.calculate_node_color`, as a
function of the already log-normalized value `min(log2(degree+1)/6, 1)`
(a value in `[0, 1]`; every float is rational, so the argument is `ℚ`).
Returns the `(red, green, blue)` channels. -/
def node_color_rgb (normalized : ℚ) : ℤ × ℤ × ℤ :=
  if normalized ≤ 33 / 100 then
    let factor := normalized / (33 / 100)
    (pyInt (factor * 255), 255, 0)
  else if normalized ≤ 66 / 100 then
    let factor := (normalized - 33 / 100) / (33 / 100)
    (255, pyInt (255 * (1 - factor * (1 / 2))), 0)
  else
    let factor := (normalized - 66 / 100) / (34 / 100)
    (255, pyInt (128 * (1 - factor)), 0)

/-- The hex string `f"#{red:02x}{green:02x}{blue:02x}"` built from the
gradient channels (they are non-negative for normalized inputs in `[0, 1]`,
see the node-color theorem, so formatting via `Nat` is exact). -/
def calculate_node_color_of_normalized (normalized : ℚ) : String :=
  let c := node_color_rgb normalized
  "#" ++ hex02 c.1.toNat ++ hex02 c.2.1.toNat ++ hex02 c.2.2.toNat

/-! ### Domain sanitization (`renderer.sanitize_domain_name`).

Python's salted `hash()` is modelled as an arbitrary function
`h : String → ℤ`; `%` on `ℤ` matches Python `%` for a positive modulus.
Character classes (`str.isalnum`, `str.strip`, the regex) are modelled over
ASCII, which covers every character class the regex `[^a-zA-Z0-9.-]` can let
through. -/

/-- ASCII whitespace stripped by Python `str.strip()`. -/
def pyIsSpace (c : Char) : Bool :=
  c == ' ' || c == '\t' || c == '\n' || c == '\r' ||
    c == Char.ofNat 11 || c == Char.ofNat 12

/-- Python `str.strip()`: drop leading and trailing whitespace. -/
def pyStrip (s : String) : String :=
  String.mk (((s.data.dropWhile pyIsSpace).reverse.dropWhile pyIsSpace).reverse)

/-- Python `c in s` for a single character (structural form of
`String.contains`). -/
def pyContains (s : String) (c : Char) : Bool :=
  s.data.contains c

/-- Helper for `pySplitComma`: accumulate the current segment (reversed)
while scanning. -/
def pySplitCommaAux : List Char → List Char → List String
  | [], acc => [String.mk acc.reverse]
  | c :: cs, acc =>
      if c = ',' then String.mk acc.reverse :: pySplitCommaAux cs []
      else pySplitCommaAux cs (c :: acc)

/-- Python `s.split(',')`: segments between commas, keeping empty segments. -/
def pySplitComma (s : String) : List String :=
  pySplitCommaAux s.data []

/-- Python `'.'.join(parts)` (structural form of `String.intercalate`). -/
def pyJoinDots : List String → String
  | [] => ""
  | [p] => p
  | p :: ps => p ++ "." ++ pyJoinDots ps

/-- Python `str.isalnum()` (ASCII fragment): non-empty and all alphanumeric. -/
def pyIsAlnum (s : String) : Bool :=
  !s.data.isEmpty && s.data.all Char.isAlphanum

/-- The regex substitution `re.sub(r'[^a-zA-Z0-9.-]', '', s)`: keep only
letters, digits, dots and hyphens. -/
def keep_domain_chars (s : String) : String :=
  String.mk (s.data.filter (fun c => c.isAlphanum || c == '.' || c == '-'))

/-- The comma-repair step of `renderer.sanitize_domain_name`: when the
stripped value contains a comma but no dot and splits on commas into two or
more alphanumeric-or-hyphen segments, the commas are reinterpreted as
dots. -/
def sanitize_comma_fix (cleaned : String) : String :=
  if pyContains cleaned ',' && !pyContains cleaned '.' then
    if decide (2 ≤ (pySplitComma cleaned).length) &&
        (pySplitComma cleaned).all (fun p => pyIsAlnum p || pyContains p '-') then
      pyJoinDots (pySplitComma cleaned)
    else cleaned
  else cleaned

/-- `renderer.sanitize_domain_name` for a string argument: empty input maps
to `"unknown"`; otherwise the value is stripped, comma-repaired, and every
character outside `[A-Za-z0-9.-]` is removed; an empty or degenerate result
(bare `"."` or `"-"`) is replaced by the `hash`-derived placeholder. -/
def sanitize_domain_name (h : String → ℤ) (domain : String) : String :=
  if domain = "" then "unknown" else
  if keep_domain_chars (sanitize_comma_fix (pyStrip domain)) = "" ∨
      keep_domain_chars (sanitize_comma_fix (pyStrip domain)) = "." ∨
      keep_domain_chars (sanitize_comma_fix (pyStrip domain)) = "-" then
    "invalid_domain_" ++ toString (h domain % 10000)
  else keep_domain_chars (sanitize_comma_fix (pyStrip domain))

/-- `renderer.sanitize_domain_name` including the `None` argument: the
guard `if not domain` treats `None` exactly like the empty string. -/
def sanitize_domain_arg (h : String → ℤ) (domain : Option String) : String :=
  match domain with
  | none => "unknown"
  | some s => sanitize_domain_name h s

/-! ## Lemmas about the traversal primitives -/

theorem mem_successors {G : Graph} {m n : Nat} :
    n ∈ successors G m ↔ ∃ w, (m, n, w) ∈ G.edges := by
  simp only [successors, List.mem_map, List.mem_filter, beq_iff_eq]
  constructor
  · rintro ⟨⟨a, b, c⟩, ⟨hmem, rfl⟩, rfl⟩
    exact ⟨c, hmem⟩
  · rintro ⟨w, hw⟩
    exact ⟨(m, n, w), ⟨hw, rfl⟩, rfl⟩

theorem mem_predecessors {G : Graph} {m n : Nat} :
    n ∈ predecessors G m ↔ ∃ w, (n, m, w) ∈ G.edges := by
  simp only [predecessors, List.mem_map, List.mem_filter, beq_iff_eq]
  constructor
  · rintro ⟨⟨a, b, c⟩, ⟨hmem, rfl⟩, rfl⟩
    exact ⟨c, hmem⟩
  · rintro ⟨w, hw⟩
    exact ⟨(n, m, w), ⟨hw, rfl⟩, rfl⟩

theorem mem_neighborsAll {G : Graph} {ns : List Nat} {n : Nat} :
    n ∈ neighborsAll G ns ↔
      ∃ m ∈ ns, n ∈ successors G m ∨ n ∈ predecessors G m := by
  simp only [neighborsAll]
  constructor
  · intro hn
    rcases List.mem_flatten.mp hn with ⟨l, hl, hnl⟩
    rcases List.mem_map.mp hl with ⟨m, hm, rfl⟩
    exact ⟨m, hm, List.mem_append.mp hnl⟩
  · rintro ⟨m, hm, hn⟩
    exact List.mem_flatten.mpr
      ⟨_, List.mem_map.mpr ⟨m, hm, rfl⟩, List.mem_append.mpr hn⟩

theorem mem_expand_succ (G : Graph) (k : Nat) :
    ∀ ns n, n ∈ expand G (k + 1) ns ↔
      n ∈ expand G k ns ∨
        ∃ m ∈ expand G k ns, n ∈ successors G m ∨ n ∈ predecessors G m := by
  induction k with
  | zero =>
      intro ns n
      show n ∈ ns ++ neighborsAll G ns ↔ _
      simp only [expand, List.mem_append, mem_neighborsAll]
  | succ k ih =>
      intro ns n
      show n ∈ expand G (k + 1) (ns ++ neighborsAll G ns) ↔ _
      rw [ih (ns ++ neighborsAll G ns) n]
      exact Iff.rfl

theorem mem_expand_iff_spec (G : Graph) (r : Nat) (k : Nat) :
    ∀ n, n ∈ expand G k [r] ↔ specExpanded G r k n := by
  induction k with
  | zero => intro n; simp [expand, specExpanded]
  | succ k ih =>
      intro n
      rw [mem_expand_succ]
      simp only [specExpanded, mem_successors, mem_predecessors, ih]

theorem contains_iff_mem {l : List Nat} {n : Nat} : l.contains n = true ↔ n ∈ l := by
  simp [List.contains]

theorem mem_subgraphInduced_nodes {G : Graph} {S : List Nat} {p : Nat × NodeData} :
    p ∈ (subgraphInduced G S).nodes ↔ p ∈ G.nodes ∧ p.1 ∈ S := by
  simp [subgraphInduced, List.mem_filter, contains_iff_mem]

theorem mem_subgraphInduced_edges {G : Graph} {S : List Nat} {e : Nat × Nat × Int} :
    e ∈ (subgraphInduced G S).edges ↔ e ∈ G.edges ∧ e.1 ∈ S ∧ e.2.1 ∈ S := by
  simp [subgraphInduced, List.mem_filter, contains_iff_mem, Bool.and_eq_true, and_assoc]

theorem findRootId_of_first (G : Graph) (d : String) (l₁ : List (Nat × NodeData))
    (p : Nat × NodeData) (l₂ : List (Nat × NodeData)) (hsplit : G.nodes = l₁ ++ p :: l₂)
    (hbefore : ∀ q ∈ l₁, q.2.domain ≠ d) (hp : p.2.domain = d) :
    findRootId G d = some p.1 := by
  unfold findRootId
  rw [hsplit, List.find?_append]
  have h₁ : l₁.find? (fun q => q.2.domain == d) = none := by
    rw [List.find?_eq_none]
    intro q hq
    simpa using hbefore q hq
  rw [h₁, List.find?_cons_of_pos _ (by simpa using hp)]
  rfl

/-- C1: subgraph extraction finds the first node whose `domain` equals the
root domain, errors when none matches, and otherwise performs `hopDepth`
rounds each adding all direct successors and predecessors of every included
node (`specExpanded` is the spec wording of that expansion), returning the
induced subgraph with every edge of `G` between included nodes; on the
worked scenario, rooted at `"b.com"` with depth 1, it yields node set
`{1, 2, 3}` and both edges. -/
theorem extract_subgraph_correct (G : Graph) (d : String) (k : Nat) :
    ((∀ p ∈ G.nodes, p.2.domain ≠ d) →
        extract_subgraph G d k = .error ("Domain " ++ d ++ " not found in graph")) ∧
    (∀ l₁ p l₂, G.nodes = l₁ ++ p :: l₂ → (∀ q ∈ l₁, q.2.domain ≠ d) →
        p.2.domain = d → findRootId G d = some p.1) ∧
    (∀ r, findRootId G d = some r →
        ∃ H, extract_subgraph G d k = .ok H ∧
          (∀ p, p ∈ H.nodes ↔ p ∈ G.nodes ∧ specExpanded G r k p.1) ∧
          (∀ e, e ∈ H.edges ↔
            e ∈ G.edges ∧ specExpanded G r k e.1 ∧ specExpanded G r k e.2.1)) ∧
    (∃ H, extract_subgraph exampleG "b.com" 1 = .ok H ∧
      H.nodes.map Prod.fst = [1, 2, 3] ∧ H.edges = [(1, 2, 1), (2, 3, 5)]) := by
  refine ⟨?_, ?_, ?_, ⟨exampleG, rfl, rfl, rfl⟩⟩
  · intro hnone
    unfold extract_subgraph findRootId
    rw [List.find?_eq_none.mpr (by intro q hq; simpa using hnone q hq)]
    rfl
  · exact fun l₁ p l₂ h1 h2 h3 => findRootId_of_first G d l₁ p l₂ h1 h2 h3
  · intro r hr
    refine ⟨subgraphInduced G (expand G k [r]), ?_, ?_, ?_⟩
    · unfold extract_subgraph
      rw [hr]
    · intro p
      rw [mem_subgraphInduced_nodes, mem_expand_iff_spec]
    · intro e
      rw [mem_subgraphInduced_edges, mem_expand_iff_spec, mem_expand_iff_spec]

theorem extract_subgraph_correct_witness :
    extract_subgraph exampleG "nope" 1 =
      .error ("Domain " ++ "nope" ++ " not found in graph") ∧
    findRootId exampleG "b.com" = some 2 ∧
    (∃ H, extract_subgraph exampleG "b.com" 1 = .ok H ∧
      (∀ p, p ∈ H.nodes ↔ p ∈ exampleG.nodes ∧ specExpanded exampleG 2 1 p.1) ∧
      (∀ e, e ∈ H.edges ↔
        e ∈ exampleG.edges ∧ specExpanded exampleG 2 1 e.1 ∧
          specExpanded exampleG 2 1 e.2.1)) := by
  refine ⟨(extract_subgraph_correct exampleG "nope" 1).1 (by decide), ?_, ?_⟩
  · exact (extract_subgraph_correct exampleG "b.com" 1).2.1
      [(1, exNodeData "a.com")] (2, exNodeData "b.com") [(3, exNodeData "c.com")]
      rfl (by decide) rfl
  · exact (extract_subgraph_correct exampleG "b.com" 1).2.2.1 2 rfl

/-! ## Lemmas about the weight filter -/

theorem pair_contains_iff {l : List (Nat × Nat)} {x : Nat × Nat} :
    l.contains x = true ↔ x ∈ l := by
  simp [List.contains]

theorem mem_filter_by_weight_edges {G : Graph} {w : Int} (hG : G.EdgePairsNodup)
    {e : Nat × Nat × Int} :
    e ∈ (filter_by_weight G w).edges ↔ e ∈ G.edges ∧ w ≤ e.2.2 := by
  simp only [filter_by_weight, remove_edges_from, List.mem_filter,
    Bool.not_eq_eq_eq_not, Bool.not_true]
  constructor
  · rintro ⟨hmem, hcon⟩
    refine ⟨hmem, ?_⟩
    by_contra hlt
    rw [Int.not_le] at hlt
    have : (e.1, e.2.1) ∈
        (G.edges.filter (fun e => e.2.2 < w)).map (fun e => (e.1, e.2.1)) :=
      List.mem_map.mpr ⟨e, List.mem_filter.mpr ⟨hmem, by simpa using hlt⟩, rfl⟩
    rw [← pair_contains_iff] at this
    rw [this] at hcon
    exact Bool.true_eq_false.mp hcon
  · rintro ⟨hmem, hle⟩
    refine ⟨hmem, ?_⟩
    rw [← Bool.not_eq_true, pair_contains_iff]
    intro habs
    rcases List.mem_map.mp habs with ⟨e', he', hpair⟩
    rcases List.mem_filter.mp he' with ⟨he'mem, he'lt⟩
    have : e' = e := List.inj_on_of_nodup_map hG he'mem hmem hpair
    subst this
    have : e'.2.2 < w := by simpa using he'lt
    omega

/-- C2: the weight filter keeps exactly the edges with weight `≥ w` and
never removes a node; on the scenario graph filtered at `minWeight = 2`,
only edge `(2, 3)` survives and node 1 remains present. -/
theorem filter_by_weight_correct (G : Graph) (w : Int) (hG : G.EdgePairsNodup) :
    (filter_by_weight G w).nodes = G.nodes ∧
    (∀ e, e ∈ (filter_by_weight G w).edges ↔ e ∈ G.edges ∧ w ≤ e.2.2) ∧
    (filter_by_weight exampleG 2).edges = [(2, 3, 5)] ∧
    (1, exNodeData "a.com") ∈ (filter_by_weight exampleG 2).nodes := by
  refine ⟨rfl, fun e => mem_filter_by_weight_edges hG, by decide, by decide⟩

theorem filter_by_weight_correct_witness :
    Graph.EdgePairsNodup exampleG ∧
    (filter_by_weight exampleG 2).nodes = exampleG.nodes ∧
    ((1, 2, 1) ∈ (filter_by_weight exampleG 2).edges ↔
      (1, 2, 1) ∈ exampleG.edges ∧ (2 : Int) ≤ 1) := by
  have h := filter_by_weight_correct exampleG 2 (by decide)
  exact ⟨by decide, h.1, h.2.1 (1, 2, 1)⟩

/-! ## Lemmas about the negative-threshold behaviour (claim C3) -/

/-- C3 counterexample: calling `filter_by_weight` with the negative
threshold `-1` does not fail; it silently returns the input graph. -/
theorem filter_by_weight_negative_returns_graph :
    filter_by_weight exampleG (-1) = exampleG ∧
    validate_min_weight (some (-1)) = false := by
  decide

/-- C3 amended: the weight-filter function itself does not fail on a
negative threshold (it silently returns a graph, unchanged whenever every
weight is non-negative); the non-negativity requirement is enforced by the
CLI argument validator in `main.validate_arguments`, which rejects a
negative `--min-weight` before the filter can run. -/
theorem filter_by_weight_negative_validation (w : Int) (hw : w < 0) :
    validate_min_weight (some w) = false ∧
    ∀ G : Graph, (∀ e ∈ G.edges, 0 ≤ e.2.2) → filter_by_weight G w = G := by
  constructor
  · simp only [validate_min_weight, Bool.not_eq_false', decide_eq_true_eq]
    exact hw
  · intro G hpos
    unfold filter_by_weight remove_edges_from
    have hnil : G.edges.filter (fun e => e.2.2 < w) = [] := by
      rw [List.filter_eq_nil_iff]
      intro e he
      have := hpos e he
      simp only [decide_eq_true_eq]
      omega
    rw [hnil]
    simp only [List.map_nil]
    have hself :
        G.edges.filter (fun e => !(([] : List (Nat × Nat)).contains (e.1, e.2.1))) =
          G.edges :=
      List.filter_eq_self.mpr (fun e he => rfl)
    rw [hself]

theorem filter_by_weight_negative_validation_witness :
    validate_min_weight (some (-2)) = false ∧
    filter_by_weight exampleG (-2) = exampleG := by
  have h := filter_by_weight_negative_validation (-2) (by decide)
  exact ⟨h.1, h.2 exampleG (by decide)⟩

/-! ## Lemmas about the isolation filter (claim C6) -/

theorem contains_eq_false {l : List Nat} {n : Nat} : l.contains n = false ↔ n ∉ l := by
  simp [List.contains]

theorem remove_isolated_edges_eq (G : Graph) : (remove_isolated G).edges = G.edges := by
  unfold remove_isolated remove_nodes_from
  rw [List.filter_eq_self]
  intro e he
  have h1 : e.1 ∉ isolates G := by
    intro habs
    have h := (List.mem_filter.mp habs).2
    have hany : G.edges.any (incident e.1) = true :=
      List.any_eq_true.mpr ⟨e, he, by simp [incident]⟩
    rw [hany] at h
    simp at h
  have h2 : e.2.1 ∉ isolates G := by
    intro habs
    have h := (List.mem_filter.mp habs).2
    have hany : G.edges.any (incident e.2.1) = true :=
      List.any_eq_true.mpr ⟨e, he, by simp [incident]⟩
    rw [hany] at h
    simp at h
  simp only [Bool.and_eq_true, Bool.not_eq_true']
  exact ⟨contains_eq_false.mpr h1, contains_eq_false.mpr h2⟩

theorem isolates_remove_isolated (G : Graph) : isolates (remove_isolated G) = [] := by
  unfold isolates
  rw [List.filter_eq_nil_iff]
  intro n hn
  rcases List.mem_map.mp hn with ⟨p, hp, rfl⟩
  have hp2 := List.mem_filter.mp hp
  have hnotiso : p.1 ∉ isolates G := by
    have := hp2.2
    simp only [Bool.not_eq_true'] at this
    exact contains_eq_false.mp this
  have hinmap : p.1 ∈ G.nodes.map Prod.fst := List.mem_map.mpr ⟨p, hp2.1, rfl⟩
  have hany : G.edges.any (incident p.1) = true := by
    by_contra habs
    exact hnotiso (List.mem_filter.mpr
      ⟨hinmap, by simp only [Bool.not_eq_true] at habs ⊢; simp [habs]⟩)
  rw [remove_isolated_edges_eq, hany]
  simp

theorem remove_isolated_fix (G : Graph) :
    remove_isolated (remove_isolated G) = remove_isolated G := by
  conv_lhs => rw [remove_isolated, isolates_remove_isolated]
  unfold remove_nodes_from
  cases h : remove_isolated G with
  | mk ns es =>
      congr 1
      · rw [List.filter_eq_self]; intro p hp; rfl
      · rw [List.filter_eq_self]; intro e he; rfl

/-- C6: applying the isolation filter twice yields the same node count and
edge count as applying it once. -/
theorem remove_isolated_idempotent (G : Graph) :
    (remove_isolated (remove_isolated G)).nodes.length =
      (remove_isolated G).nodes.length ∧
    (remove_isolated (remove_isolated G)).edges.length =
      (remove_isolated G).edges.length := by
  rw [remove_isolated_fix]
  exact ⟨rfl, rfl⟩

/-! ## Heap-level lemmas: the filters never mutate the input graph (C7) -/

theorem storeGet_append_lt (σ τ : List Graph) (a : Nat) (h : a < σ.length) :
    storeGet (σ ++ τ) a = storeGet σ a := by
  unfold storeGet
  rw [List.getD_eq_getElem?_getD, List.getD_eq_getElem?_getD,
    List.getElem?_append_left h]

theorem storeGet_concat_length (σ : List Graph) (g : Graph) :
    storeGet (σ ++ [g]) σ.length = g := by
  unfold storeGet
  rw [List.getD_eq_getElem?_getD, List.getElem?_concat_length]
  rfl

theorem set_concat_length (σ : List Graph) (g x : Graph) :
    (σ ++ [g]).set σ.length x = σ ++ [x] := by
  rw [List.set_append_right _ _ (Nat.le_refl _)]
  simp

theorem filter_by_weight_impl_store (σ : List Graph) (a : Nat) (w : Int) :
    (filter_by_weight_impl σ a w).1 = σ ++ [filter_by_weight (storeGet σ a) w] ∧
    (filter_by_weight_impl σ a w).2 = σ.length := by
  unfold filter_by_weight_impl store_copy store_remove_edges
  refine ⟨?_, rfl⟩
  simp only [storeGet_concat_length, set_concat_length]
  rfl

theorem remove_isolated_impl_store (σ : List Graph) (a : Nat) :
    (remove_isolated_impl σ a).1 = σ ++ [remove_isolated (storeGet σ a)] ∧
    (remove_isolated_impl σ a).2 = σ.length := by
  unfold remove_isolated_impl store_copy store_remove_nodes
  refine ⟨?_, rfl⟩
  simp only [storeGet_concat_length, set_concat_length]
  rfl

/-- C7: each of the three filter operations allocates a fresh graph cell for
its result and leaves the input cell untouched: after the call, address `a`
still holds exactly the graph it held before (all node, edge and attribute
data), the returned address is distinct from `a`, and the fresh cell holds
the value-level result of the operation. -/
theorem filters_do_not_mutate_input (σ : List Graph) (a : Nat) (w : Int)
    (d : String) (k : Nat) (ha : a < σ.length) :
    (storeGet (filter_by_weight_impl σ a w).1 a = storeGet σ a ∧
      (filter_by_weight_impl σ a w).2 ≠ a ∧
      storeGet (filter_by_weight_impl σ a w).1 (filter_by_weight_impl σ a w).2 =
        filter_by_weight (storeGet σ a) w) ∧
    (storeGet (remove_isolated_impl σ a).1 a = storeGet σ a ∧
      (remove_isolated_impl σ a).2 ≠ a ∧
      storeGet (remove_isolated_impl σ a).1 (remove_isolated_impl σ a).2 =
        remove_isolated (storeGet σ a)) ∧
    (extract_subgraph_impl σ a d k =
        (extract_subgraph (storeGet σ a) d k).map (fun H => (σ ++ [H], σ.length)) ∧
      (∀ H : Graph, storeGet (σ ++ [H]) a = storeGet σ a) ∧ σ.length ≠ a) := by
  have hfw := filter_by_weight_impl_store σ a w
  have hri := remove_isolated_impl_store σ a
  have hne : σ.length ≠ a := by omega
  refine ⟨⟨?_, ?_, ?_⟩, ⟨?_, ?_, ?_⟩, rfl, ?_, hne⟩
  · rw [hfw.1, storeGet_append_lt _ _ _ ha]
  · rw [hfw.2]; exact hne
  · rw [hfw.1, hfw.2, storeGet_concat_length]
  · rw [hri.1, storeGet_append_lt _ _ _ ha]
  · rw [hri.2]; exact hne
  · rw [hri.1, hri.2, storeGet_concat_length]
  · intro H; exact storeGet_append_lt _ _ _ ha

theorem filters_do_not_mutate_input_witness :
    (storeGet (filter_by_weight_impl [exampleG] 0 2).1 0 = storeGet [exampleG] 0 ∧
      (filter_by_weight_impl [exampleG] 0 2).2 ≠ 0 ∧
      storeGet (filter_by_weight_impl [exampleG] 0 2).1
          (filter_by_weight_impl [exampleG] 0 2).2 =
        filter_by_weight (storeGet [exampleG] 0) 2) ∧
    (storeGet (remove_isolated_impl [exampleG] 0).1 0 = storeGet [exampleG] 0 ∧
      (remove_isolated_impl [exampleG] 0).2 ≠ 0 ∧
      storeGet (remove_isolated_impl [exampleG] 0).1
          (remove_isolated_impl [exampleG] 0).2 =
        remove_isolated (storeGet [exampleG] 0)) ∧
    (extract_subgraph_impl [exampleG] 0 "b.com" 1 =
        (extract_subgraph (storeGet [exampleG] 0) "b.com" 1).map
          (fun H => ([exampleG] ++ [H], 1)) ∧
      (∀ H : Graph, storeGet ([exampleG] ++ [H]) 0 = storeGet [exampleG] 0) ∧
      (1 : Nat) ≠ 0) :=
  filters_do_not_mutate_input [exampleG] 0 2 "b.com" 1 (by decide)

/-! ## Lemmas about position normalization (claims C4 and C5) -/

theorem foldl_min_le_init (l : List ℚ) (a : ℚ) : l.foldl min a ≤ a := by
  induction l generalizing a with
  | nil => simp
  | cons x xs ih => exact le_trans (ih (min a x)) (min_le_left a x)

theorem foldl_min_le_mem {l : List ℚ} {y : ℚ} (hy : y ∈ l) (a : ℚ) :
    l.foldl min a ≤ y := by
  induction l generalizing a with
  | nil => cases hy
  | cons x xs ih =>
      rcases List.mem_cons.mp hy with rfl | hmem
      · exact le_trans (foldl_min_le_init xs (min a y)) (min_le_right a y)
      · exact ih hmem (min a x)

theorem foldl_min_mem_or (l : List ℚ) (a : ℚ) :
    l.foldl min a = a ∨ l.foldl min a ∈ l := by
  induction l generalizing a with
  | nil => exact Or.inl rfl
  | cons x xs ih =>
      rcases ih (min a x) with h | h
      · have hfold : List.foldl min a (x :: xs) = min a x := h
        rcases min_choice a x with hc | hc
        · exact Or.inl (by rw [hfold, hc])
        · exact Or.inr (by rw [hfold, hc]; exact List.mem_cons_self x xs)
      · exact Or.inr (List.mem_cons_of_mem x h)

theorem le_foldl_max_init (l : List ℚ) (a : ℚ) : a ≤ l.foldl max a := by
  induction l generalizing a with
  | nil => simp
  | cons x xs ih => exact le_trans (le_max_left a x) (ih (max a x))

theorem mem_le_foldl_max {l : List ℚ} {y : ℚ} (hy : y ∈ l) (a : ℚ) :
    y ≤ l.foldl max a := by
  induction l generalizing a with
  | nil => cases hy
  | cons x xs ih =>
      rcases List.mem_cons.mp hy with rfl | hmem
      · exact le_trans (le_max_right a y) (le_foldl_max_init xs (max a y))
      · exact ih hmem (max a x)

theorem foldl_max_mem_or (l : List ℚ) (a : ℚ) :
    l.foldl max a = a ∨ l.foldl max a ∈ l := by
  induction l generalizing a with
  | nil => exact Or.inl rfl
  | cons x xs ih =>
      rcases ih (max a x) with h | h
      · have hfold : List.foldl max a (x :: xs) = max a x := h
        rcases max_choice a x with hc | hc
        · exact Or.inl (by rw [hfold, hc])
        · exact Or.inr (by rw [hfold, hc]; exact List.mem_cons_self x xs)
      · exact Or.inr (List.mem_cons_of_mem x h)

theorem pyMin_le_mem {l : List ℚ} {y : ℚ} (hy : y ∈ l) : pyMin l ≤ y := by
  cases l with
  | nil => cases hy
  | cons x xs =>
      rcases List.mem_cons.mp hy with rfl | hmem
      · exact foldl_min_le_init xs y
      · exact foldl_min_le_mem hmem x

theorem mem_le_pyMax {l : List ℚ} {y : ℚ} (hy : y ∈ l) : y ≤ pyMax l := by
  cases l with
  | nil => cases hy
  | cons x xs =>
      rcases List.mem_cons.mp hy with rfl | hmem
      · exact le_foldl_max_init xs y
      · exact mem_le_foldl_max hmem x

theorem pyMin_mem {l : List ℚ} (hl : l ≠ []) : pyMin l ∈ l := by
  cases l with
  | nil => exact absurd rfl hl
  | cons x xs =>
      rcases foldl_min_mem_or xs x with h | h
      · rw [show pyMin (x :: xs) = xs.foldl min x from rfl, h]
        exact List.mem_cons_self x xs
      · exact List.mem_cons_of_mem x h

theorem pyMax_mem {l : List ℚ} (hl : l ≠ []) : pyMax l ∈ l := by
  cases l with
  | nil => exact absurd rfl hl
  | cons x xs =>
      rcases foldl_max_mem_or xs x with h | h
      · rw [show pyMax (x :: xs) = xs.foldl max x from rfl, h]
        exact List.mem_cons_self x xs
      · exact List.mem_cons_of_mem x h

/-- The per-axis min-max rescaling of `normalize_positions` lands in
`[0, scale]` for any member of the axis values, with the degenerate range
replaced by 1. -/
theorem norm_coord_bounds {xs : List ℚ} {x : ℚ} (hx : x ∈ xs) {scale : ℚ}
    (hs : 0 ≤ scale) :
    0 ≤ (x - pyMin xs) / (if pyMax xs ≠ pyMin xs then pyMax xs - pyMin xs else 1) *
        scale ∧
      (x - pyMin xs) / (if pyMax xs ≠ pyMin xs then pyMax xs - pyMin xs else 1) *
          scale ≤ scale := by
  have hmin : pyMin xs ≤ x := pyMin_le_mem hx
  have hmax : x ≤ pyMax xs := mem_le_pyMax hx
  by_cases hr : pyMax xs ≠ pyMin xs
  · rw [if_pos hr]
    have hlt : 0 < pyMax xs - pyMin xs := by
      rcases lt_or_eq_of_le (le_trans hmin hmax) with h | h
      · linarith
      · exact absurd h.symm hr
    have h01 : 0 ≤ (x - pyMin xs) / (pyMax xs - pyMin xs) :=
      div_nonneg (by linarith) (le_of_lt hlt)
    have h1 : (x - pyMin xs) / (pyMax xs - pyMin xs) ≤ 1 :=
      (div_le_one hlt).mpr (by linarith)
    exact ⟨mul_nonneg h01 hs, by nlinarith⟩
  · rw [if_neg hr]
    push_neg at hr
    have hx' : x = pyMin xs := le_antisymm (hr ▸ hmax) hmin
    rw [hx', sub_self, zero_div, zero_mul]
    exact ⟨le_refl 0, hs⟩

/-- Every coordinate produced by `normalize_positions` lies in
`[0 - jitter, scale + jitter]` when the jitter samples stay in the support
of `random.uniform(-jitter, jitter)`. -/
theorem normalize_positions_mem_bounds (rand : Nat → ℚ × ℚ)
    (pos : List (Nat × ℚ × ℚ)) (scale jitter : ℚ) (hs : 0 ≤ scale)
    (hj : 0 ≤ jitter)
    (hr : ∀ n, -jitter ≤ (rand n).1 ∧ (rand n).1 ≤ jitter ∧
      -jitter ≤ (rand n).2 ∧ (rand n).2 ≤ jitter) :
    ∀ q ∈ normalize_positions rand pos scale jitter,
      0 - jitter ≤ q.2.1 ∧ q.2.1 ≤ scale + jitter ∧
        0 - jitter ≤ q.2.2 ∧ q.2.2 ≤ scale + jitter := by
  intro q hq
  unfold normalize_positions at hq
  by_cases hne : pos.isEmpty
  · rw [if_pos hne] at hq
    cases hq
  · rw [if_neg hne] at hq
    simp only at hq
    rcases List.mem_map.mp hq with ⟨p, hp, rfl⟩
    have hxmem : p.2.1 ∈ pos.map (fun q => q.2.1) := List.mem_map.mpr ⟨p, hp, rfl⟩
    have hymem : p.2.2 ∈ pos.map (fun q => q.2.2) := List.mem_map.mpr ⟨p, hp, rfl⟩
    have hbx := norm_coord_bounds hxmem hs
    have hby := norm_coord_bounds hymem hs
    by_cases hjp : 0 < jitter
    · rw [if_pos hjp]
      have hrp := hr p.1
      refine ⟨?_, ?_, ?_, ?_⟩ <;> simp only <;> linarith [hbx.1, hbx.2, hby.1, hby.2]
    · rw [if_neg hjp]
      refine ⟨?_, ?_, ?_, ?_⟩ <;> simp only <;> linarith [hbx.1, hbx.2, hby.1, hby.2]

/-- With jitter 0 the node carrying the axis minimum is sent to 0, and when
the axis is non-degenerate the node carrying the axis maximum is sent to
`scale`. -/
theorem normalize_positions_attains (rand : Nat → ℚ × ℚ)
    (pos : List (Nat × ℚ × ℚ)) (scale : ℚ) (hne : pos ≠ []) :
    ((∃ q ∈ normalize_positions rand pos scale 0, q.2.1 = 0) ∧
      (∃ q ∈ normalize_positions rand pos scale 0, q.2.2 = 0)) ∧
    ((pyMax (pos.map (fun q => q.2.1)) ≠ pyMin (pos.map (fun q => q.2.1)) →
        ∃ q ∈ normalize_positions rand pos scale 0, q.2.1 = scale) ∧
      (pyMax (pos.map (fun q => q.2.2)) ≠ pyMin (pos.map (fun q => q.2.2)) →
        ∃ q ∈ normalize_positions rand pos scale 0, q.2.2 = scale)) := by
  have hne' : pos.isEmpty = false := List.isEmpty_eq_false.mpr hne
  have hmapx : pos.map (fun q => q.2.1) ≠ [] := by
    simpa using hne
  have hmapy : pos.map (fun q => q.2.2) ≠ [] := by
    simpa using hne
  have hmem :
      ∀ p ∈ pos,
        (p.1,
          (p.2.1 - pyMin (pos.map (fun q => q.2.1))) /
            (if pyMax (pos.map (fun q => q.2.1)) ≠ pyMin (pos.map (fun q => q.2.1))
              then pyMax (pos.map (fun q => q.2.1)) - pyMin (pos.map (fun q => q.2.1))
              else 1) * scale,
          (p.2.2 - pyMin (pos.map (fun q => q.2.2))) /
            (if pyMax (pos.map (fun q => q.2.2)) ≠ pyMin (pos.map (fun q => q.2.2))
              then pyMax (pos.map (fun q => q.2.2)) - pyMin (pos.map (fun q => q.2.2))
              else 1) * scale) ∈ normalize_positions rand pos scale 0 := by
    intro p hp
    unfold normalize_positions
    rw [if_neg (by rw [hne']; exact Bool.false_ne_true)]
    simp only [lt_self_iff_false, if_false]
    exact List.mem_map.mpr ⟨p, hp, rfl⟩
  constructor
  · constructor
    · rcases List.mem_map.mp (pyMin_mem hmapx) with ⟨p, hp, hpx⟩
      refine ⟨_, hmem p hp, ?_⟩
      simp only
      rw [hpx, sub_self, zero_div, zero_mul]
    · rcases List.mem_map.mp (pyMin_mem hmapy) with ⟨p, hp, hpy⟩
      refine ⟨_, hmem p hp, ?_⟩
      simp only
      rw [hpy, sub_self, zero_div, zero_mul]
  · constructor
    · intro hrx
      rcases List.mem_map.mp (pyMax_mem hmapx) with ⟨p, hp, hpx⟩
      refine ⟨_, hmem p hp, ?_⟩
      simp only
      rw [hpx, if_pos hrx, div_self (sub_ne_zero.mpr hrx), one_mul]
    · intro hry
      rcases List.mem_map.mp (pyMax_mem hmapy) with ⟨p, hp, hpy⟩
      refine ⟨_, hmem p hp, ?_⟩
      simp only
      rw [hpy, if_pos hry, div_self (sub_ne_zero.mpr hry), one_mul]

/-- C4: for a non-empty position mapping, non-negative scale `S` and jitter
`j` (with the jitter draws inside the support of
`random.uniform(-j, j)`), every normalized coordinate lies in
`[0 - j, S + j]`; when `j = 0` each axis attains its boundary — the node
carrying the axis minimum is sent to 0 (also in the degenerate equal-range
case, where the range is treated as 1.0), and the node carrying the axis
maximum is sent to `S` whenever the axis is non-degenerate. -/
theorem normalize_positions_bounds (rand : Nat → ℚ × ℚ)
    (pos : List (Nat × ℚ × ℚ)) (scale jitter : ℚ) (hne : pos ≠ [])
    (hs : 0 ≤ scale) (hj : 0 ≤ jitter)
    (hr : ∀ n, -jitter ≤ (rand n).1 ∧ (rand n).1 ≤ jitter ∧
      -jitter ≤ (rand n).2 ∧ (rand n).2 ≤ jitter) :
    (∀ q ∈ normalize_positions rand pos scale jitter,
      0 - jitter ≤ q.2.1 ∧ q.2.1 ≤ scale + jitter ∧
        0 - jitter ≤ q.2.2 ∧ q.2.2 ≤ scale + jitter) ∧
    (jitter = 0 →
      ((∃ q ∈ normalize_positions rand pos scale jitter, q.2.1 = 0 ∨ q.2.1 = scale) ∧
        (∃ q ∈ normalize_positions rand pos scale jitter, q.2.2 = 0 ∨ q.2.2 = scale)) ∧
      ((pyMax (pos.map (fun q => q.2.1)) ≠ pyMin (pos.map (fun q => q.2.1)) →
          ∃ q ∈ normalize_positions rand pos scale jitter, q.2.1 = scale) ∧
        (pyMax (pos.map (fun q => q.2.2)) ≠ pyMin (pos.map (fun q => q.2.2)) →
          ∃ q ∈ normalize_positions rand pos scale jitter, q.2.2 = scale))) := by
  refine ⟨normalize_positions_mem_bounds rand pos scale jitter hs hj hr, ?_⟩
  rintro rfl
  have h := normalize_positions_attains rand pos scale hne
  refine ⟨⟨?_, ?_⟩, h.2⟩
  · rcases h.1.1 with ⟨q, hq, hq0⟩
    exact ⟨q, hq, Or.inl hq0⟩
  · rcases h.1.2 with ⟨q, hq, hq0⟩
    exact ⟨q, hq, Or.inl hq0⟩

theorem normalize_positions_bounds_witness :
    (∀ q ∈ normalize_positions (fun _ => (0, 0)) [(1, (0, 0)), (2, (4, 4))] 50 0,
      0 - 0 ≤ q.2.1 ∧ q.2.1 ≤ 50 + 0 ∧ 0 - 0 ≤ q.2.2 ∧ q.2.2 ≤ 50 + 0) ∧
    ((∃ q ∈ normalize_positions (fun _ => (0, 0)) [(1, (0, 0)), (2, (4, 4))] 50 0,
        q.2.1 = 0 ∨ q.2.1 = 50) ∧
      (∃ q ∈ normalize_positions (fun _ => (0, 0)) [(1, (0, 0)), (2, (4, 4))] 50 0,
        q.2.2 = 0 ∨ q.2.2 = 50)) := by
  have h := normalize_positions_bounds (fun _ => (0, 0)) [(1, (0, 0)), (2, (4, 4))]
    50 0 (by simp) (by norm_num) (le_refl 0)
    (fun n => ⟨by norm_num, by norm_num, by norm_num, by norm_num⟩)
  exact ⟨h.1, (h.2 rfl).1⟩

/-- C5 counterexample: the default value of the `scale` parameter of
`normalize_positions` is 10.0, not 50.0 — normalizing with the parameter
left unspecified rescales the example positions onto `[0, 10]`, which is a
different result from normalizing with scale 50. -/
theorem normalize_positions_default_scale_is_ten :
    normalize_positions (fun _ => (0, 0)) [(1, (0, 0)), (2, (4, 4))] =
      [(1, (0, 0)), (2, (10, 10))] ∧
    normalize_positions_scale_default = 10 ∧
    normalize_positions_scale_default ≠ 50 ∧
    normalize_positions (fun _ => (0, 0)) [(1, (0, 0)), (2, (4, 4))] ≠
      normalize_positions (fun _ => (0, 0)) [(1, (0, 0)), (2, (4, 4))] 50 0 := by
  have h10 : normalize_positions (fun _ => (0, 0)) [(1, (0, 0)), (2, (4, 4))] =
      [(1, (0, 0)), (2, (10, 10))] := by
    norm_num [normalize_positions, pyMin, pyMax, normalize_positions_scale_default,
      normalize_positions_jitter_default]
  have h50 : normalize_positions (fun _ => (0, 0)) [(1, (0, 0)), (2, (4, 4))] 50 0 =
      [(1, (0, 0)), (2, (50, 50))] := by
    norm_num [normalize_positions, pyMin, pyMax]
  refine ⟨h10, rfl, by norm_num [normalize_positions_scale_default], ?_⟩
  rw [h10, h50]
  simp

/-- C5 amended: the pipeline entry point `render_cosmograph_csv` has default
scale 50.0 and always passes its scale to `normalize_positions` explicitly,
so an export invoked without a scale rescales coordinates into `[0, 50]`
(up to the default jitter 0.05); the default of the `scale` parameter of
`normalize_positions` itself, however, is 10.0 and is never used by the
pipeline. -/
theorem render_scale_default_fifty (rand : Nat → ℚ × ℚ)
    (layout_pos : List (Nat × ℚ × ℚ))
    (hr : ∀ n, -(1 / 20) ≤ (rand n).1 ∧ (rand n).1 ≤ 1 / 20 ∧
      -(1 / 20) ≤ (rand n).2 ∧ (rand n).2 ≤ 1 / 20) :
    render_cosmograph_csv_scale_default = 50 ∧
    normalize_positions_scale_default = 10 ∧
    render_positions rand layout_pos =
      normalize_positions rand layout_pos 50 (1 / 20) ∧
    ∀ q ∈ render_positions rand layout_pos,
      0 - 1 / 20 ≤ q.2.1 ∧ q.2.1 ≤ 50 + 1 / 20 ∧
        0 - 1 / 20 ≤ q.2.2 ∧ q.2.2 ≤ 50 + 1 / 20 := by
  refine ⟨rfl, rfl, rfl, ?_⟩
  have h := normalize_positions_mem_bounds rand layout_pos 50 (1 / 20)
    (by norm_num) (by norm_num) (fun n => by
      rcases hr n with ⟨h1, h2, h3, h4⟩
      exact ⟨by linarith, by linarith, by linarith, by linarith⟩)
  intro q hq
  exact h q hq

theorem render_scale_default_fifty_witness :
    render_cosmograph_csv_scale_default = 50 ∧
    normalize_positions_scale_default = 10 ∧
    render_positions (fun _ => (0, 0)) [(1, (0, 0)), (2, (4, 4))] =
      normalize_positions (fun _ => (0, 0)) [(1, (0, 0)), (2, (4, 4))] 50 (1 / 20) ∧
    ∀ q ∈ render_positions (fun _ => (0, 0)) [(1, (0, 0)), (2, (4, 4))],
      0 - 1 / 20 ≤ q.2.1 ∧ q.2.1 ≤ 50 + 1 / 20 ∧
        0 - 1 / 20 ≤ q.2.2 ∧ q.2.2 ≤ 50 + 1 / 20 :=
  render_scale_default_fifty (fun _ => (0, 0)) [(1, (0, 0)), (2, (4, 4))]
    (fun n => ⟨by norm_num, by norm_num, by norm_num, by norm_num⟩)

/-! ## Lemmas about the node-color gradient (claim C9) -/

theorem pyInt_eq_floor {q : ℚ} (hq : 0 ≤ q) : pyInt q = ⌊q⌋ := by
  unfold pyInt
  rw [if_neg (not_lt.mpr hq)]

theorem node_color_rgb_branch1 {t : ℚ} (h : t ≤ 33 / 100) :
    node_color_rgb t = (pyInt (t / (33 / 100) * 255), 255, 0) := by
  unfold node_color_rgb
  rw [if_pos h]

theorem node_color_rgb_branch2 {t : ℚ} (h1 : ¬t ≤ 33 / 100) (h2 : t ≤ 66 / 100) :
    node_color_rgb t =
      (255, pyInt (255 * (1 - (t - 33 / 100) / (33 / 100) * (1 / 2))), 0) := by
  unfold node_color_rgb
  rw [if_neg h1, if_pos h2]

theorem node_color_rgb_branch3 {t : ℚ} (h1 : ¬t ≤ 33 / 100) (h2 : ¬t ≤ 66 / 100) :
    node_color_rgb t = (255, pyInt (128 * (1 - (t - 66 / 100) / (34 / 100))), 0) := by
  unfold node_color_rgb
  rw [if_neg h1, if_neg h2]

theorem floor_eq_of_bounds {q : ℚ} {z : ℤ} (h1 : (z : ℚ) ≤ q) (h2 : q < z + 1) :
    ⌊q⌋ = z :=
  Int.floor_eq_iff.mpr ⟨h1, h2⟩

theorem natToHex_length_two {n : Nat} (h16 : 16 ≤ n) (h256 : n < 256) :
    (natToHex n).length = 2 := by
  have hdiv : n / 16 < 16 := by omega
  rw [natToHex.eq_def]
  rw [dif_neg (by omega)]
  rw [natToHex.eq_def, dif_pos hdiv]
  simp

theorem hex02_length {n : Nat} (h : n < 256) : (hex02 n).length = 2 := by
  unfold hex02
  by_cases h16 : n < 16
  · have hlen : (natToHex n).length = 1 := by
      rw [natToHex.eq_def, dif_pos h16]
      simp
    simp only [hlen]
    rw [if_pos (by omega)]
    rw [String.length_append, hlen]
    decide
  · have hlen : (natToHex n).length = 2 := natToHex_length_two (by omega) h
    simp only [hlen]
    rw [if_neg (by omega)]
    exact hlen

theorem node_color_rgb_range {t : ℚ} (h0 : 0 ≤ t) (h1 : t ≤ 1) :
    0 ≤ (node_color_rgb t).1 ∧ (node_color_rgb t).1 ≤ 255 ∧
      0 ≤ (node_color_rgb t).2.1 ∧ (node_color_rgb t).2.1 ≤ 255 ∧
      (node_color_rgb t).2.2 = 0 := by
  by_cases hb1 : t ≤ 33 / 100
  · rw [node_color_rgb_branch1 hb1]
    have hq0 : (0 : ℚ) ≤ t / (33 / 100) * 255 := by positivity
    have hq255 : t / (33 / 100) * 255 ≤ 255 := by
      have : t / (33 / 100) = t * (100 / 33) := by ring
      rw [this]
      nlinarith
    rw [pyInt_eq_floor hq0]
    refine ⟨Int.le_floor.mpr (by exact_mod_cast hq0), ?_, by norm_num, by norm_num,
      rfl⟩
    have := Int.floor_mono hq255
    rwa [show ((255 : ℚ)) = ((255 : ℤ) : ℚ) by norm_num, Int.floor_intCast] at this
  · by_cases hb2 : t ≤ 66 / 100
    · rw [node_color_rgb_branch2 hb1 hb2]
      push_neg at hb1
      have hf0 : (0 : ℚ) ≤ (t - 33 / 100) / (33 / 100) := by
        apply div_nonneg <;> linarith
      have hf1 : (t - 33 / 100) / (33 / 100) ≤ 1 := by
        rw [div_le_one (by norm_num)]
        linarith
      have hq0 : (0 : ℚ) ≤ 255 * (1 - (t - 33 / 100) / (33 / 100) * (1 / 2)) := by
        nlinarith
      have hq255 : 255 * (1 - (t - 33 / 100) / (33 / 100) * (1 / 2)) ≤ 255 := by
        nlinarith
      rw [pyInt_eq_floor hq0]
      refine ⟨by norm_num, by norm_num, Int.le_floor.mpr (by exact_mod_cast hq0),
        ?_, rfl⟩
      have := Int.floor_mono hq255
      rwa [show ((255 : ℚ)) = ((255 : ℤ) : ℚ) by norm_num, Int.floor_intCast] at this
    · rw [node_color_rgb_branch3 hb1 hb2]
      push_neg at hb1 hb2
      have hf0 : (0 : ℚ) ≤ (t - 66 / 100) / (34 / 100) := by
        apply div_nonneg <;> linarith
      have hf1 : (t - 66 / 100) / (34 / 100) ≤ 1 := by
        rw [div_le_one (by norm_num)]
        linarith
      have hq0 : (0 : ℚ) ≤ 128 * (1 - (t - 66 / 100) / (34 / 100)) := by nlinarith
      have hq255 : 128 * (1 - (t - 66 / 100) / (34 / 100)) ≤ 255 := by nlinarith
      rw [pyInt_eq_floor hq0]
      refine ⟨by norm_num, by norm_num, Int.le_floor.mpr (by exact_mod_cast hq0),
        ?_, rfl⟩
      have := Int.floor_mono hq255
      rwa [show ((255 : ℚ)) = ((255 : ℤ) : ℚ) by norm_num, Int.floor_intCast] at this

/-- C9: over normalized inputs in `[0, 1]` (the image of
`min(log2(degree+1)/6, 1)`), the gradient keeps every channel in
`[0, 255]` so the formatted color is `#` plus six hex digits, and at both
segment boundaries (0.33 and 0.66) the colors immediately below and above
the boundary differ by at most one unit per channel. -/
theorem calculate_node_color_continuity :
    (∀ t : ℚ, 0 ≤ t → t ≤ 1 →
      0 ≤ (node_color_rgb t).1 ∧ (node_color_rgb t).1 ≤ 255 ∧
        0 ≤ (node_color_rgb t).2.1 ∧ (node_color_rgb t).2.1 ≤ 255 ∧
        (node_color_rgb t).2.2 = 0 ∧
        (calculate_node_color_of_normalized t).length = 7) ∧
    (∀ t₁ t₂ : ℚ, 33 / 100 - 1 / 1000 < t₁ → t₁ ≤ 33 / 100 →
      33 / 100 < t₂ → t₂ < 33 / 100 + 1 / 1000 →
      |(node_color_rgb t₁).1 - (node_color_rgb t₂).1| ≤ 1 ∧
        |(node_color_rgb t₁).2.1 - (node_color_rgb t₂).2.1| ≤ 1 ∧
        |(node_color_rgb t₁).2.2 - (node_color_rgb t₂).2.2| ≤ 1) ∧
    (∀ t₁ t₂ : ℚ, 66 / 100 - 1 / 1000 < t₁ → t₁ ≤ 66 / 100 →
      66 / 100 < t₂ → t₂ < 66 / 100 + 1 / 1000 →
      |(node_color_rgb t₁).1 - (node_color_rgb t₂).1| ≤ 1 ∧
        |(node_color_rgb t₁).2.1 - (node_color_rgb t₂).2.1| ≤ 1 ∧
        |(node_color_rgb t₁).2.2 - (node_color_rgb t₂).2.2| ≤ 1) := by
  refine ⟨?_, ?_, ?_⟩
  · intro t h0 h1
    obtain ⟨hr0, hr255, hg0, hg255, hb⟩ := node_color_rgb_range h0 h1
    refine ⟨hr0, hr255, hg0, hg255, hb, ?_⟩
    unfold calculate_node_color_of_normalized
    have hrn : (node_color_rgb t).1.toNat < 256 := by omega
    have hgn : (node_color_rgb t).2.1.toNat < 256 := by omega
    have hbn : (node_color_rgb t).2.2.toNat < 256 := by omega
    simp only [String.length_append, hex02_length hrn, hex02_length hgn,
      hex02_length hbn]
    rfl
  · intro t₁ t₂ ha1 ha2 ha3 ha4
    have hred1 : 254 ≤ (node_color_rgb t₁).1 ∧ (node_color_rgb t₁).1 ≤ 255 := by
      rw [node_color_rgb_branch1 ha2]
      show 254 ≤ pyInt (t₁ / (33 / 100) * 255) ∧ pyInt (t₁ / (33 / 100) * 255) ≤ 255
      have hdiv : t₁ / (33 / 100) * 255 = t₁ * (100 / 33) * 255 := by ring
      have hq0 : (0 : ℚ) ≤ t₁ / (33 / 100) * 255 := by
        rw [hdiv]; nlinarith
      rw [pyInt_eq_floor hq0]
      constructor
      · exact Int.le_floor.mpr (by rw [hdiv]; push_cast; nlinarith)
      · have hle : t₁ / (33 / 100) * 255 ≤ 255 := by rw [hdiv]; nlinarith
        have := Int.floor_mono hle
        rwa [show ((255 : ℚ)) = ((255 : ℤ) : ℚ) by norm_num, Int.floor_intCast]
          at this
    have hr2 : (node_color_rgb t₂).1 = 255 := by
      rw [node_color_rgb_branch2 (by intro hx; linarith) (by linarith)]
    have hg1 : (node_color_rgb t₁).2.1 = 255 := by
      rw [node_color_rgb_branch1 ha2]
    have hg2 : (node_color_rgb t₂).2.1 = 254 := by
      rw [node_color_rgb_branch2 (by intro hx; linarith) (by linarith)]
      show pyInt (255 * (1 - (t₂ - 33 / 100) / (33 / 100) * (1 / 2))) = 254
      have hrw : (t₂ - 33 / 100) / (33 / 100) = (t₂ - 33 / 100) * (100 / 33) := by
        ring
      have hq0 : (0 : ℚ) ≤ 255 * (1 - (t₂ - 33 / 100) / (33 / 100) * (1 / 2)) := by
        rw [hrw]; nlinarith
      rw [pyInt_eq_floor hq0]
      apply floor_eq_of_bounds
      · rw [hrw]; push_cast; nlinarith
      · rw [hrw]; push_cast; nlinarith
    have hb1 : (node_color_rgb t₁).2.2 = 0 := by
      rw [node_color_rgb_branch1 ha2]
    have hb2 : (node_color_rgb t₂).2.2 = 0 := by
      rw [node_color_rgb_branch2 (by intro hx; linarith) (by linarith)]
    obtain ⟨h254, h255⟩ := hred1
    rw [hr2, hg1, hg2, hb1, hb2]
    refine ⟨?_, by norm_num, by norm_num⟩
    rw [abs_le]
    omega
  · intro t₁ t₂ ha1 ha2 ha3 ha4
    have hg1 : (node_color_rgb t₁).2.1 = 127 := by
      rw [node_color_rgb_branch2 (by intro h; linarith) ha2]
      have hrw : (t₁ - 33 / 100) / (33 / 100) = (t₁ - 33 / 100) * (100 / 33) := by
        ring
      have hq0 : (0 : ℚ) ≤ 255 * (1 - (t₁ - 33 / 100) / (33 / 100) * (1 / 2)) := by
        rw [hrw]; nlinarith
      rw [pyInt_eq_floor hq0]
      apply floor_eq_of_bounds
      · rw [hrw]; push_cast; nlinarith
      · rw [hrw]; push_cast; nlinarith
    have hg2 : (node_color_rgb t₂).2.1 = 127 := by
      rw [node_color_rgb_branch3 (by intro h; linarith) (by intro h; linarith)]
      have hrw : (t₂ - 66 / 100) / (34 / 100) = (t₂ - 66 / 100) * (100 / 34) := by
        ring
      have hq0 : (0 : ℚ) ≤ 128 * (1 - (t₂ - 66 / 100) / (34 / 100)) := by
        rw [hrw]; nlinarith
      rw [pyInt_eq_floor hq0]
      apply floor_eq_of_bounds
      · rw [hrw]; push_cast; nlinarith
      · rw [hrw]; push_cast; nlinarith
    have hr1 : (node_color_rgb t₁).1 = 255 := by
      rw [node_color_rgb_branch2 (by intro h; linarith) ha2]
    have hr2 : (node_color_rgb t₂).1 = 255 := by
      rw [node_color_rgb_branch3 (by intro h; linarith) (by intro h; linarith)]
    have hb1 : (node_color_rgb t₁).2.2 = 0 := by
      rw [node_color_rgb_branch2 (by intro h; linarith) ha2]
    have hb2 : (node_color_rgb t₂).2.2 = 0 := by
      rw [node_color_rgb_branch3 (by intro h; linarith) (by intro h; linarith)]
    rw [hg1, hg2, hr1, hr2, hb1, hb2]
    norm_num

theorem calculate_node_color_continuity_witness :
    (0 ≤ (node_color_rgb (1 / 2)).1 ∧ (node_color_rgb (1 / 2)).1 ≤ 255 ∧
      0 ≤ (node_color_rgb (1 / 2)).2.1 ∧ (node_color_rgb (1 / 2)).2.1 ≤ 255 ∧
      (node_color_rgb (1 / 2)).2.2 = 0 ∧
      (calculate_node_color_of_normalized (1 / 2)).length = 7) ∧
    (|(node_color_rgb (33 / 100)).1 - (node_color_rgb (33 / 100 + 1 / 2000)).1| ≤ 1 ∧
      |(node_color_rgb (33 / 100)).2.1 -
        (node_color_rgb (33 / 100 + 1 / 2000)).2.1| ≤ 1 ∧
      |(node_color_rgb (33 / 100)).2.2 -
        (node_color_rgb (33 / 100 + 1 / 2000)).2.2| ≤ 1) ∧
    (|(node_color_rgb (66 / 100)).1 - (node_color_rgb (66 / 100 + 1 / 2000)).1| ≤ 1 ∧
      |(node_color_rgb (66 / 100)).2.1 -
        (node_color_rgb (66 / 100 + 1 / 2000)).2.1| ≤ 1 ∧
      |(node_color_rgb (66 / 100)).2.2 -
        (node_color_rgb (66 / 100 + 1 / 2000)).2.2| ≤ 1) :=
  ⟨calculate_node_color_continuity.1 (1 / 2) (by norm_num) (by norm_num),
    calculate_node_color_continuity.2.1 (33 / 100) (33 / 100 + 1 / 2000)
      (by norm_num) (by norm_num) (by norm_num) (by norm_num),
    calculate_node_color_continuity.2.2 (66 / 100) (66 / 100 + 1 / 2000)
      (by norm_num) (by norm_num) (by norm_num) (by norm_num)⟩

/-! ## Lemmas about domain sanitization (claims C8 and C10) -/

theorem invalid_placeholder_ne_empty (t : String) : "invalid_domain_" ++ t ≠ "" := by
  intro heq
  have hlen := congrArg String.length heq
  rw [String.length_append] at hlen
  have h15 : ("invalid_domain_" : String).length = 15 := by decide
  have h0 : ("" : String).length = 0 := rfl
  rw [h15, h0] at hlen
  omega

theorem unknown_ne_placeholder (t : String) :
    ("unknown" : String) ≠ "invalid_domain_" ++ t := by
  intro heq
  have hlen := congrArg String.length heq
  rw [String.length_append] at hlen
  have h7 : ("unknown" : String).length = 7 := by decide
  have h15 : ("invalid_domain_" : String).length = 15 := by decide
  rw [h7, h15] at hlen
  omega

theorem sanitize_domain_name_ne_empty (h : String → ℤ) (domain : String) :
    sanitize_domain_name h domain ≠ "" := by
  unfold sanitize_domain_name
  split
  · decide
  · split
    · exact invalid_placeholder_ne_empty _
    · rename_i hcond
      push_neg at hcond
      exact hcond.1

/-- C8: sanitization always returns a non-empty string; `"example,com"` is
repaired to `"example.com"` (comma reinterpreted as dot), and `"!!!"` — which
becomes empty after character stripping — is replaced by the non-empty
hash-derived placeholder `invalid_domain_<hash % 10000>`. -/
theorem sanitize_domain_name_nonempty_and_examples (h : String → ℤ)
    (domain : String) :
    sanitize_domain_name h domain ≠ "" ∧
    sanitize_domain_name h "example,com" = "example.com" ∧
    sanitize_domain_name h "!!!" = "invalid_domain_" ++ toString (h "!!!" % 10000) ∧
    sanitize_domain_name h "!!!" ≠ "" :=
  ⟨sanitize_domain_name_ne_empty h domain, rfl, rfl,
    sanitize_domain_name_ne_empty h "!!!"⟩

/-- C10: an empty (or `None`) domain is mapped to the constant `"unknown"`
by the early guard, never to the hash-derived placeholder used for values
that become empty only after cleaning. -/
theorem sanitize_domain_name_empty_unknown (h : String → ℤ) :
    sanitize_domain_name h "" = "unknown" ∧
    sanitize_domain_arg h none = "unknown" ∧
    ∀ t : String, sanitize_domain_name h "" ≠ "invalid_domain_" ++ t := by
  refine ⟨rfl, rfl, ?_⟩
  intro t
  rw [show sanitize_domain_name h "" = "unknown" from rfl]
  exact unknown_ne_placeholder t

end WebWeaver
